import Mathlib

/-!
Verification of the link-resolution and path-rewriting engine of
`src/preprocessing.py` (jupyter_book_pipeline).

Strings are modelled as `List Char` (Python `str`), paths as forward-slash
joined strings, and a source tree as the traversal-ordered list of its files'
relative paths, each a list of segments.  Python's `str.replace`,
`str.split('/')`, `'/'.join`, `re.sub` with the source's concrete patterns,
`os.path.relpath`, `pathlib.Path.parent/.name/.suffix` are each embedded for
the input class the program feeds them (relative, `..`-free paths).
-/

/-- Python `s.replace(a, b)` for single characters `a`, `b`. -/
def replaceChar (a b : Char) (s : List Char) : List Char :=
  s.map (fun c => if c = a then b else c)

/-- Python `s.replace('%20', '_')`: leftmost, non-overlapping. -/
def replacePct20 : List Char → List Char
  | '%' :: '2' :: '0' :: rest => '_' :: replacePct20 rest
  | c :: rest => c :: replacePct20 rest
  | [] => []

/-- Python `s.replace('@', '\\@')` (`fix_text_issues`, line 233). -/
def escapeAt : List Char → List Char
  | [] => []
  | c :: rest => if c = '@' then '\\' :: '@' :: escapeAt rest else c :: escapeAt rest

/-- Python `s.split('/')` (keeps empty segments, `"" ↦ [""]`). -/
def splitSlash : List Char → List (List Char)
  | [] => [[]]
  | c :: rest =>
    if c = '/' then [] :: splitSlash rest
    else
      match splitSlash rest with
      | [] => [[c]]
      | seg :: segs => (c :: seg) :: segs

/-- Python `'/'.join(segs)`. -/
def joinSlash : List (List Char) → List Char
  | [] => []
  | [s] => s
  | s :: rest => s ++ '/' :: joinSlash rest

/-- `sanitize_filename` (preprocessing.py lines 19-21):
`filename.replace('%20', '_').replace(' ', '_')`. -/
def sanitize_filename (filename : List Char) : List Char :=
  replaceChar ' ' '_' (replacePct20 filename)

/-- `sanitize_path` (lines 24-27): replace `\` by `/`, split on `/`,
sanitize each part, rejoin with `/`. -/
def sanitize_path (path_str : List Char) : List Char :=
  joinSlash ((splitSlash (replaceChar '\\' '/' path_str)).map sanitize_filename)

/-- The segment filter `os.path`/`pathlib` normalization applies to a split
relative path: empty segments and `.` segments are dropped. -/
def normSegs (segs : List (List Char)) : List (List Char) :=
  segs.filter (fun s => decide (s ≠ [] ∧ s ≠ ['.']))

/-- The component form of `posixpath.relpath`'s core: drop the common prefix,
then one `..` per remaining start component followed by the remaining path
components.  Faithful to `os.path.relpath(to, from)` for already-normalized
relative inputs (no `..` components). -/
def relpathSegs : List (List Char) → List (List Char) → List (List Char)
  | t :: ts, f :: fs =>
    if t = f then relpathSegs ts fs
    else List.replicate (fs.length + 1) ['.', '.'] ++ t :: ts
  | ts, fs => List.replicate fs.length ['.', '.'] ++ ts

/-- `get_relative_path` (lines 30-37): `os.path.relpath(to_file,
Path(from_file).parent)` with the result's backslashes replaced by `/`,
embedded for relative `..`-free inputs (`os.path.relpath` returns `os.curdir`
= `"."` for an empty relative list; its `ValueError` branch, reached only for
empty or cross-drive inputs, is unreachable here). -/
def get_relative_path (from_file to_file : List Char) : List Char :=
  let from_dir := (normSegs (splitSlash (replaceChar '\\' '/' from_file))).dropLast
  let to_segs := normSegs (splitSlash (replaceChar '\\' '/' to_file))
  let rel := relpathSegs to_segs from_dir
  if rel = [] then ['.'] else joinSlash rel

/-- `str(Path(p).parent)` as `convert_obsidian_links` line 157 uses it
(forward-slash form): all but the last normalized component, `"."` when that
is empty. -/
def pyParentStr (p : List Char) : List Char :=
  match (normSegs (splitSlash (replaceChar '\\' '/' p))).dropLast with
  | [] => ['.']
  | ds => joinSlash ds

/-- `Path(p).name`: the last normalized component (Windows semantics: both
separators split). -/
def pyName (p : List Char) : List Char :=
  (normSegs (splitSlash (replaceChar '\\' '/' p))).getLastD []

/-- The text after the last `'.'` of a list, if any. -/
def afterLastDot : List Char → Option (List Char)
  | [] => none
  | c :: rest =>
    match afterLastDot rest with
    | some s => some s
    | none => if c = '.' then some rest else none

/-- `Path.suffix` on a name: `name[i:]` for `i = name.rfind('.')` when
`0 < i < len(name) - 1`, else `''`. -/
def pySuffix (name : List Char) : List Char :=
  match name with
  | [] => []
  | _ :: rest =>
    match afterLastDot rest with
    | some [] => []
    | some s => '.' :: s
    | none => []

/-- `Path(raw).suffix.lower()` (lines 148, 188); `.lower()` is ASCII here. -/
def pySuffixLower (raw : List Char) : List Char :=
  (pySuffix (pyName raw)).map Char.toLower

/-- `IMAGE_EXTENSIONS` (line 13). -/
def IMAGE_EXTENSIONS : List (List Char) :=
  [".jpg".data, ".jpeg".data, ".png".data, ".gif".data, ".webp".data, ".svg".data, ".bmp".data]

/-- A `file_index` value (`build_file_index`, lines 118-126): one path, or the
list a duplicate sanitized filename grows into. -/
inductive Entry where
  | single (p : List Char) : Entry
  | multi (ps : List (List Char)) : Entry
deriving DecidableEq, Repr

/-- Python `dict` lookup (`key in file_index` / `file_index[key]`) on the
insertion-ordered association list. -/
def lookupIdx : List (List Char × Entry) → List Char → Option Entry
  | [], _ => none
  | (k, e) :: rest, key => if k = key then some e else lookupIdx rest key

/-- The `file_index` update of lines 118-126: a fresh key maps to the single
path; an existing single value becomes `[old, new]`; a list value appends. -/
def indexInsert (idx : List (List Char × Entry)) (key p : List Char) :
    List (List Char × Entry) :=
  match idx with
  | [] => [(key, Entry.single p)]
  | (k, e) :: rest =>
    if k = key then
      (k, match e with
          | Entry.single q => Entry.multi [q, p]
          | Entry.multi qs => Entry.multi (qs ++ [p])) :: rest
    else (k, e) :: indexInsert rest key p

/-- `part.startswith(('.', '_'))` (line 105). -/
def startsDotUnder (seg : List Char) : Bool :=
  match seg with
  | [] => false
  | c :: _ => c = '.' || c = '_'

/-- The skip test of line 105: some segment of the relative path starts with
`.` or `_`. -/
def isHidden (parts : List (List Char)) : Bool :=
  parts.any startsDotUnder

/-- `str(Path(*[sanitize_filename(part) for part in parts])).replace('\\','/')`
(lines 110-111): the sanitized relative path string of a file. -/
def pathOf (parts : List (List Char)) : List Char :=
  replaceChar '\\' '/' (joinSlash (parts.map sanitize_filename))

/-- `sanitize_filename(item.name)` (line 112): the file's sanitized bare
filename (`item.name` is the last path component). -/
def fnameOf (parts : List (List Char)) : List Char :=
  sanitize_filename (parts.getLastD [])

/-- The loop of `build_file_index` (lines 104-126) over the remaining files,
threading the accumulated `file_index` and `path_set` (the set is kept as the
insertion-ordered list of its additions). -/
def buildIndexAux (tree : List (List (List Char)))
    (idx : List (List Char × Entry)) (pset : List (List Char)) :
    List (List Char × Entry) × List (List Char) :=
  match tree with
  | [] => (idx, pset)
  | parts :: rest =>
    if isHidden parts then buildIndexAux rest idx pset
    else buildIndexAux rest (indexInsert idx (fnameOf parts) (pathOf parts))
      (pset ++ [pathOf parts])

/-- `build_file_index` (lines 92-128) on the traversal-ordered list of the
source tree's files (each given by its relative path's segments). -/
def build_file_index (tree : List (List (List Char))) :
    List (List Char × Entry) × List (List Char) :=
  buildIndexAux tree [] []

/-- `'/' in raw_reference or '\\' in raw_reference` (line 145). -/
def containsSep (raw : List Char) : Bool :=
  raw.contains '/' || raw.contains '\\'

/-- The `replacement` closure of `convert_obsidian_links` (lines 141-193):
what one `![[raw]]` occurrence in a document at `current` becomes. -/
def obsidianReplacement (raw current : List Char)
    (file_index : List (List Char × Entry)) (path_set : List (List Char)) :
    List Char :=
  if containsSep raw then
    let sanitized_path := sanitize_path raw
    let filename := pyName raw
    let ext := pySuffixLower raw
    let final_path :=
      if sanitized_path ∈ path_set then get_relative_path current sanitized_path
      else
        let current_dir := pyParentStr current
        let candidate :=
          if current_dir = ['.'] then sanitized_path
          else current_dir ++ '/' :: sanitized_path
        if candidate ∈ path_set then sanitized_path else sanitized_path
    if ext ∈ IMAGE_EXTENSIONS then "![](".data ++ final_path ++ ")".data
    else "[Download ".data ++ filename ++ "](".data ++ final_path ++ ")".data
  else
    let sanitized_lookup := sanitize_filename raw
    match lookupIdx file_index sanitized_lookup with
    | none => "![[".data ++ raw ++ "]]".data
    | some entry =>
      let file_path :=
        match entry with
        | Entry.single p => p
        | Entry.multi ps => ps.headD []
      let rel_path := get_relative_path current file_path
      let ext := pySuffixLower raw
      if ext ∈ IMAGE_EXTENSIONS then "![](".data ++ rel_path ++ ")".data
      else "[Download ".data ++ raw ++ "](".data ++ rel_path ++ ")".data

/-- Python `\s` (`re` whitespace) on the ASCII range. -/
def isPySpace (c : Char) : Bool :=
  c = ' ' || c = '\t' || c = '\n' || c = '\r' || c = '\x0b' || c = '\x0c'

/-- `ensure_image_linebreaks` (lines 45-50):
`re.sub(r'(\S)(\!\[\[)', r'\1\n\n\2', content)` — a blank line is inserted
between any non-whitespace character and an immediately following `![[`. -/
def ensure_image_linebreaks : List Char → List Char
  | c :: '!' :: '[' :: '[' :: rest =>
    if isPySpace c then c :: ensure_image_linebreaks ('!' :: '[' :: '[' :: rest)
    else c :: '\n' :: '\n' :: '!' :: '[' :: '[' :: ensure_image_linebreaks rest
  | c :: rest => c :: ensure_image_linebreaks rest
  | [] => []

/-- Case-insensitive match of the lowercase literal `pat` at the front of `s`
(`re.IGNORECASE`); the rest of `s` on success. -/
def matchCI : List Char → List Char → Option (List Char)
  | [], s => some s
  | _ :: _, [] => none
  | p :: ps, c :: s => if c.toLower = p then matchCI ps s else none

/-- `[a-f0-9]` under `re.IGNORECASE`. -/
def isHexCI (c : Char) : Bool :=
  ('0' ≤ c && c ≤ '9') || ('a' ≤ c.toLower && c.toLower ≤ 'f')

/-- The maximal run of `[a-f0-9]` characters and what follows it. -/
def takeHexRun : List Char → List Char × List Char
  | [] => ([], [])
  | c :: rest =>
    if isHexCI c then
      let (h, t) := takeHexRun rest
      (c :: h, t)
    else ([], c :: rest)

/-- The scan of `re.sub(r'Lab%20Notebook%20[a-f0-9]+/', 'attachments/', s,
flags=re.IGNORECASE)` (lines 59-64), fuelled by the input length. -/
def notionSubGo : Nat → List Char → List Char
  | 0, s => s
  | _ + 1, [] => []
  | fuel + 1, c :: rest =>
    match matchCI "lab%20notebook%20".data (c :: rest) with
    | some afterPat =>
      match takeHexRun afterPat with
      | (h, '/' :: t) =>
        if h = [] then c :: notionSubGo fuel rest
        else "attachments/".data ++ notionSubGo fuel t
      | _ => c :: notionSubGo fuel rest
    | none => c :: notionSubGo fuel rest

/-- Python `s.replace(pat, repl)` for a non-empty literal `pat`, fuelled. -/
def replaceSubGo (pat repl : List Char) : Nat → List Char → List Char
  | 0, s => s
  | _ + 1, [] => []
  | fuel + 1, c :: rest =>
    if pat ≠ [] ∧ pat.isPrefixOf (c :: rest) then
      repl ++ replaceSubGo pat repl fuel ((c :: rest).drop pat.length)
    else c :: replaceSubGo pat repl fuel rest

/-- `normalize_notion_folders` (lines 57-66): the vendor-folder `re.sub`
followed by `content.replace('__attachments/', 'attachments/')`. -/
def normalize_notion_folders (content : List Char) : List Char :=
  let s := notionSubGo content.length content
  replaceSubGo "__attachments/".data "attachments/".data s.length s

/-- Scan to the first occurrence of `stop`: the characters before it and the
rest after it (`[^X]*` followed by the literal `X`). -/
def scanTo (stop : Char) : List Char → Option (List Char × List Char)
  | [] => none
  | c :: rest =>
    if c = stop then some ([], rest)
    else
      match scanTo stop rest with
      | some (g, t) => some (c :: g, t)
      | none => none

/-- After an opening `[`: match `([^\]]*)\]\(([^)]+)\)`, returning
`(text, url, rest)`. -/
def matchLinkTail (s : List Char) : Option (List Char × List Char × List Char) :=
  match scanTo ']' s with
  | none => none
  | some (text, t1) =>
    match t1 with
    | '(' :: t2 =>
      match scanTo ')' t2 with
      | none => none
      | some (url, rest) => if url = [] then none else some (text, url, rest)
    | _ => none

/-- The scan of `re.sub(r'(!?\[)([^\]]*)\]\(([^)]+)\)', f, s)`
(`normalize_markdown_link_urls`, line 78), fuelled; `f` receives the
`prefix`, `text` and `url` groups. -/
def subLinksGo (f : List Char → List Char → List Char → List Char) :
    Nat → List Char → List Char
  | 0, s => s
  | _ + 1, [] => []
  | fuel + 1, '!' :: '[' :: rest =>
    match matchLinkTail rest with
    | some (text, url, after) => f "![".data text url ++ subLinksGo f fuel after
    | none => '!' :: subLinksGo f fuel ('[' :: rest)
  | fuel + 1, '[' :: rest =>
    match matchLinkTail rest with
    | some (text, url, after) => f "[".data text url ++ subLinksGo f fuel after
    | none => '[' :: subLinksGo f fuel rest
  | fuel + 1, c :: rest => c :: subLinksGo f fuel rest

/-- `normalize_markdown_link_urls` (lines 69-78): every standard link or
image's URL is path-sanitized (`f'{prefix}{text}]({sanitized_url})'`). -/
def normalize_markdown_link_urls (content : List Char) : List Char :=
  subLinksGo (fun pre text url => pre ++ text ++ "](".data ++ sanitize_path url ++ ")".data)
    content.length content

/-- `normalize_all_paths` (lines 81-85). -/
def normalize_all_paths (content : List Char) : List Char :=
  normalize_markdown_link_urls (normalize_notion_folders content)

/-- Find the first `]]` (with no intervening newline — `.` does not match
`\n`): the group before it and the rest after it. -/
def findClose : List Char → Option (List Char × List Char)
  | ']' :: ']' :: rest => some ([], rest)
  | '\n' :: _ => none
  | c :: rest =>
    match findClose rest with
    | some (g, t) => some (c :: g, t)
    | none => none
  | [] => none

/-- The scan of `re.sub(r'!\[\[(.*?)\]\]', f, s)` (`convert_obsidian_links`,
line 195), fuelled; `f` receives the reference group. -/
def subObsGo (f : List Char → List Char) : Nat → List Char → List Char
  | 0, s => s
  | _ + 1, [] => []
  | fuel + 1, '!' :: '[' :: '[' :: rest =>
    match findClose rest with
    | some (g, after) => f g ++ subObsGo f fuel after
    | none => '!' :: subObsGo f fuel ('[' :: '[' :: rest)
  | fuel + 1, c :: rest => c :: subObsGo f fuel rest

/-- `convert_obsidian_links` (lines 131-195). -/
def convert_obsidian_links (content current_file : List Char)
    (file_index : List (List Char × Entry)) (path_set : List (List Char)) :
    List Char :=
  subObsGo (fun raw => obsidianReplacement raw current_file file_index path_set)
    content.length content

/-- `url.startswith(('http://', 'https://', 'data:'))` (line 209). -/
def isExternalUrl (url : List Char) : Bool :=
  "http://".data.isPrefixOf url || "https://".data.isPrefixOf url ||
    "data:".data.isPrefixOf url

/-- The `replacement` closure of `rewrite_absolute_paths` (lines 204-219):
what one standard image link `![alt](url)` becomes. -/
def rewriteReplacement (alt url current : List Char)
    (path_set : List (List Char)) : List Char :=
  if isExternalUrl url then "![".data ++ alt ++ "](".data ++ url ++ ")".data
  else
    let sanitized_url := sanitize_path url
    let sanitized_url' :=
      if sanitized_url ∈ path_set then get_relative_path current sanitized_url
      else sanitized_url
    "![".data ++ alt ++ "](".data ++ sanitized_url' ++ ")".data

/-- The scan of `re.sub(r'!\[([^\]]*)\]\(([^)]+)\)', f, s)`
(`rewrite_absolute_paths`, line 221), fuelled. -/
def subImgLinksGo (f : List Char → List Char → List Char) :
    Nat → List Char → List Char
  | 0, s => s
  | _ + 1, [] => []
  | fuel + 1, '!' :: '[' :: rest =>
    match matchLinkTail rest with
    | some (alt, url, after) => f alt url ++ subImgLinksGo f fuel after
    | none => '!' :: subImgLinksGo f fuel ('[' :: rest)
  | fuel + 1, c :: rest => c :: subImgLinksGo f fuel rest

/-- `rewrite_absolute_paths` (lines 198-221). -/
def rewrite_absolute_paths (content current_file : List Char)
    (path_set : List (List Char)) : List Char :=
  subImgLinksGo (fun alt url => rewriteReplacement alt url current_file path_set)
    content.length content

/-- `fix_text_issues` (lines 228-234): en-dash, em-dash and minus sign each
become `-`, then every `@` becomes `\@`. -/
def fix_text_issues (content : List Char) : List Char :=
  escapeAt (replaceChar '−' '-' (replaceChar '—' '-' (replaceChar '–' '-' content)))

/-- `process_markdown_content` (lines 241-248): the full pipeline in source
order — block isolation, path normalization, embedded-link conversion,
absolute-path rewriting, text cleanup. -/
def process_markdown_content (content current_file : List Char)
    (file_index : List (List Char × Entry)) (path_set : List (List Char)) :
    List Char :=
  fix_text_issues
    (rewrite_absolute_paths
      (convert_obsidian_links (normalize_all_paths (ensure_image_linebreaks content))
        current_file file_index path_set)
      current_file path_set)

/-! ### Specification vocabulary

Definitions used only to state properties: walking a relative link from a
directory, well-formedness of paths and trees, the per-character reading of
the typographic phase, and the phase order the spec asserts. -/

/-- Walking a relative path from a directory: `..` pops a segment, `.` is
skipped, anything else descends. -/
def walk (dir rel : List (List Char)) : List (List Char) :=
  rel.foldl
    (fun acc seg =>
      if seg = ['.', '.'] then acc.dropLast
      else if seg = ['.'] then acc else acc ++ [seg])
    dir

/-- A plain path segment: non-empty, not `.` or `..`, without separators. -/
def plainSeg (s : List Char) : Prop :=
  s ≠ [] ∧ s ≠ ['.'] ∧ s ≠ ['.', '.'] ∧ '/' ∉ s ∧ '\\' ∉ s

instance (s : List Char) : Decidable (plainSeg s) :=
  inferInstanceAs (Decidable (_ ∧ _ ∧ _ ∧ _ ∧ _))

/-- A plain document path: a non-empty list of plain segments. -/
def plainPath (segs : List (List Char)) : Prop :=
  segs ≠ [] ∧ ∀ s ∈ segs, plainSeg s

instance (segs : List (List Char)) : Decidable (plainPath segs) :=
  inferInstanceAs (Decidable (_ ∧ _))

/-- A well-formed source file: a non-empty relative path of non-empty
segments without separator characters (what a filesystem traversal yields). -/
def wfFile (parts : List (List Char)) : Prop :=
  parts ≠ [] ∧ ∀ s ∈ parts, s ≠ [] ∧ '/' ∉ s ∧ '\\' ∉ s

instance (parts : List (List Char)) : Decidable (wfFile parts) :=
  inferInstanceAs (Decidable (_ ∧ _))

/-- A well-formed source tree: every file is well-formed. -/
def wfTree (tree : List (List (List Char))) : Prop :=
  ∀ parts ∈ tree, wfFile parts

instance (tree : List (List (List Char))) : Decidable (wfTree tree) :=
  inferInstanceAs (Decidable (∀ parts ∈ tree, wfFile parts))

/-- The sanitized paths the index-build loop records under a given sanitized
filename, in traversal order. -/
def pathsFor (key : List Char) (tree : List (List (List Char))) :
    List (List Char) :=
  tree.filterMap
    (fun parts =>
      if isHidden parts = false ∧ fnameOf parts = key then some (pathOf parts)
      else none)

/-- The sanitized paths of all non-hidden files, in traversal order
(`path_set` as the loop accumulates it). -/
def allPathsOf (tree : List (List (List Char))) : List (List Char) :=
  tree.filterMap (fun parts => if isHidden parts = false then some (pathOf parts) else none)

/-- The final segment of a slash-joined path. -/
def lastSlashSeg (p : List Char) : List Char :=
  (splitSlash p).getLastD []

/-- One character of the typographic phase read pointwise: dash code points
become `-`, `@` becomes `\@`, all else is kept. -/
def dashAtFix (c : Char) : List Char :=
  if c = '–' ∨ c = '—' ∨ c = '−' then ['-']
  else if c = '@' then ['\\', '@'] else [c]

/-- The typographic phase read as an independent per-character substitution. -/
def perCharFix : List Char → List Char
  | [] => []
  | c :: rest => dashAtFix c ++ perCharFix rest

/-- The phase order the specification asserts: the whole of standard-link
sanitization — including the root-relative-to-document-relative rewrite —
before embedded-reference conversion, typographic fix-up last.  Stated from
the spec's words, for comparison with `process_markdown_content`. -/
def claimedOrderPipeline (content current_file : List Char)
    (file_index : List (List Char × Entry)) (path_set : List (List Char)) :
    List Char :=
  fix_text_issues
    (convert_obsidian_links
      (rewrite_absolute_paths (normalize_all_paths (ensure_image_linebreaks content))
        current_file path_set)
      current_file file_index path_set)

/-! ### The index characterization

`build_file_index` is a fold of `indexInsert` over the non-hidden files; its
lookup under a key is determined by `pathsFor key tree`, and its path set is
`allPathsOf tree`. -/

/-- Folding the paths `ps` into an optional entry the way `indexInsert`
grows one key's value. -/
def mergePaths (e : Option Entry) (ps : List (List Char)) : Option Entry :=
  ps.foldl
    (fun acc p =>
      match acc with
      | none => some (Entry.single p)
      | some (Entry.single q) => some (Entry.multi [q, p])
      | some (Entry.multi qs) => some (Entry.multi (qs ++ [p])))
    e

theorem lookupIdx_indexInsert (idx : List (List Char × Entry)) (k p key : List Char) :
    lookupIdx (indexInsert idx k p) key =
      if k = key then
        match lookupIdx idx k with
        | none => some (Entry.single p)
        | some (Entry.single q) => some (Entry.multi [q, p])
        | some (Entry.multi qs) => some (Entry.multi (qs ++ [p]))
      else lookupIdx idx key := by
  induction idx with
  | nil =>
    by_cases h : k = key <;> simp [indexInsert, lookupIdx, h]
  | cons he rest ih =>
    obtain ⟨k', e⟩ := he
    by_cases hk : k' = k
    · subst hk
      by_cases hkey : k' = key
      · subst hkey
        cases e <;> simp [indexInsert, lookupIdx]
      · cases e <;> simp [indexInsert, lookupIdx, hkey, Ne.symm hkey]
    · by_cases hkey : k' = key
      · have hkk : ¬k = key := fun h => hk (hkey.trans h.symm)
        have hk2 : ¬key = k := hkey ▸ hk
        simp [indexInsert, lookupIdx, hk, hkey, hkk, hk2]
      · simp [indexInsert, lookupIdx, hk, hkey, ih]

theorem buildIndexAux_lookup (tree : List (List (List Char)))
    (idx : List (List Char × Entry)) (pset : List (List Char)) (key : List Char) :
    lookupIdx (buildIndexAux tree idx pset).1 key =
      mergePaths (lookupIdx idx key) (pathsFor key tree) := by
  induction tree generalizing idx pset with
  | nil => simp [buildIndexAux, pathsFor, mergePaths]
  | cons parts rest ih =>
    by_cases hh : isHidden parts
    · simp [buildIndexAux, hh, ih, pathsFor, List.filterMap_cons]
    · have hne : isHidden parts = false := by simpa using hh
      rw [show buildIndexAux (parts :: rest) idx pset
          = buildIndexAux rest (indexInsert idx (fnameOf parts) (pathOf parts))
              (pset ++ [pathOf parts]) from by simp [buildIndexAux, hh]]
      rw [ih, lookupIdx_indexInsert]
      by_cases hf : fnameOf parts = key
      · rw [if_pos hf]
        simp only [pathsFor, List.filterMap_cons, hne, hf, and_self, if_true,
          mergePaths, List.foldl_cons]
      · rw [if_neg hf]
        simp [pathsFor, List.filterMap_cons, hf]

theorem buildIndexAux_pset (tree : List (List (List Char)))
    (idx : List (List Char × Entry)) (pset : List (List Char)) :
    (buildIndexAux tree idx pset).2 = pset ++ allPathsOf tree := by
  induction tree generalizing idx pset with
  | nil => simp [buildIndexAux, allPathsOf]
  | cons parts rest ih =>
    by_cases hh : isHidden parts
    · simp [buildIndexAux, hh, ih, allPathsOf, List.filterMap_cons]
    · have hne : isHidden parts = false := by simpa using hh
      simp [buildIndexAux, hh, ih, allPathsOf, List.filterMap_cons, hne]

theorem build_file_index_pset (tree : List (List (List Char))) :
    (build_file_index tree).2 = allPathsOf tree := by
  simpa using buildIndexAux_pset tree [] []

theorem mergePaths_multi (qs ps : List (List Char)) :
    mergePaths (some (Entry.multi qs)) ps = some (Entry.multi (qs ++ ps)) := by
  induction ps generalizing qs with
  | nil => simp [mergePaths]
  | cons p rest ih =>
    simp only [mergePaths, List.foldl_cons] at ih ⊢
    rw [ih]
    simp

/-- What `build_file_index` maps a sanitized filename to is exactly the
traversal-ordered list of matching non-hidden files' sanitized paths: absent
for none, a single path for one, the full list for several. -/
theorem build_file_index_lookup (tree : List (List (List Char))) (key : List Char) :
    lookupIdx (build_file_index tree).1 key =
      match pathsFor key tree with
      | [] => none
      | [p] => some (Entry.single p)
      | p :: q :: qs => some (Entry.multi (p :: q :: qs)) := by
  have h := buildIndexAux_lookup tree [] [] key
  simp only [lookupIdx] at h
  rw [build_file_index, h]
  rcases pathsFor key tree with _ | ⟨p, _ | ⟨q, qs⟩⟩
  · rfl
  · rfl
  · simp only [mergePaths, List.foldl_cons]
    rw [show (List.foldl _ (some (Entry.multi [p, q])) qs : Option Entry)
        = mergePaths (some (Entry.multi [p, q])) qs from rfl, mergePaths_multi]
    simp

/-! ### Character-level lemmas about sanitization -/

theorem mem_replacePct20 (c : Char) (s : List Char) :
    c ∈ replacePct20 s → c ∈ s ∨ c = '_' := by
  induction s using replacePct20.induct with
  | case1 rest ih =>
    intro h
    rw [replacePct20, List.mem_cons] at h
    rcases h with h | h
    · right; exact h
    · rcases ih h with h | h
      · left; simp [h]
      · right; exact h
  | case2 d rest hne ih =>
    intro h
    rw [replacePct20, List.mem_cons] at h
    · rcases h with h | h
      · left; simp [h]
      · rcases ih h with h | h
        · left; simp [h]
        · right; exact h
    · exact hne
  | case3 =>
    intro h
    simp [replacePct20] at h

theorem replacePct20_ne_nil (s : List Char) (h : s ≠ []) : replacePct20 s ≠ [] := by
  induction s using replacePct20.induct with
  | case1 rest ih => rw [replacePct20]; simp
  | case2 d rest hne ih =>
    rw [replacePct20]
    · simp
    · exact hne
  | case3 => exact absurd rfl h

theorem replacePct20_head_dot (s t : List Char) (h : replacePct20 s = '.' :: t) :
    ∃ u, s = '.' :: u := by
  induction s using replacePct20.induct with
  | case1 rest ih =>
    rw [replacePct20] at h
    exact absurd (List.head_eq_of_cons_eq h) (by decide)
  | case2 d rest hne ih =>
    rw [replacePct20] at h
    · exact ⟨rest, by rw [List.head_eq_of_cons_eq h]⟩
    · exact hne
  | case3 => simp [replacePct20] at h

theorem mem_replaceChar (a b c : Char) (s : List Char) :
    c ∈ replaceChar a b s → c ∈ s ∨ c = b := by
  intro h
  rcases List.mem_map.mp h with ⟨d, hd, hdc⟩
  by_cases hda : d = a
  · right
    simp [hda] at hdc
    exact hdc.symm
  · left
    simp [hda] at hdc
    rwa [← hdc]

theorem replaceChar_eq_self (a b : Char) (s : List Char) (h : a ∉ s) :
    replaceChar a b s = s := by
  unfold replaceChar
  have hcongr : ∀ c ∈ s, (if c = a then b else c) = id c := by
    intro c hc
    have : c ≠ a := fun hca => h (hca ▸ hc)
    simp [this]
  rw [List.map_congr_left hcongr, List.map_id]

theorem not_mem_replaceChar (a b : Char) (s : List Char) (hab : a ≠ b) :
    a ∉ replaceChar a b s := by
  intro h
  rcases List.mem_map.mp h with ⟨d, _, hdc⟩
  by_cases hda : d = a
  · simp [hda] at hdc
    exact hab hdc.symm
  · simp [hda] at hdc

theorem replaceChar_ne_nil (a b : Char) (s : List Char) (h : s ≠ []) :
    replaceChar a b s ≠ [] := by
  unfold replaceChar
  simpa using h

theorem mem_sanitize_filename (c : Char) (s : List Char) :
    c ∈ sanitize_filename s → c ∈ s ∨ c = '_' := by
  intro h
  rcases mem_replaceChar _ _ _ _ h with h | h
  · exact mem_replacePct20 _ _ h
  · right; exact h

theorem sanitize_filename_ne_nil (s : List Char) (h : s ≠ []) :
    sanitize_filename s ≠ [] :=
  replaceChar_ne_nil _ _ _ (replacePct20_ne_nil s h)

theorem sanitize_filename_head_dot (s t : List Char)
    (h : sanitize_filename s = '.' :: t) : ∃ u, s = '.' :: u := by
  unfold sanitize_filename replaceChar at h
  rcases hp : replacePct20 s with _ | ⟨c, rest⟩
  · rw [hp] at h; simp at h
  · rw [hp] at h
    simp only [List.map_cons] at h
    have hc : (if c = ' ' then '_' else c) = '.' := List.head_eq_of_cons_eq h
    have hcd : c = '.' := by
      by_cases hcs : c = ' '
      · rw [if_pos hcs] at hc; exact absurd hc (by decide)
      · rwa [if_neg hcs] at hc
    exact replacePct20_head_dot s rest (by rw [hp, hcd])

/-! ### Idempotence of sanitization -/

theorem replacePct20_not_start20 (r : List Char)
    (h : ∀ t, r ≠ '2' :: '0' :: t) : ∀ t, replacePct20 r ≠ '2' :: '0' :: t := by
  intro t
  rcases r with _ | ⟨c, rr⟩
  · simp [replacePct20]
  · by_cases hc : c = '2'
    · subst hc
      rcases rr with _ | ⟨d, rr2⟩
      · simp [replacePct20]
      · have hd : d ≠ '0' := by
          intro hd0
          exact h rr2 (by rw [hd0])
        rw [show replacePct20 ('2' :: d :: rr2) = '2' :: replacePct20 (d :: rr2) from by
          rw [replacePct20]
          intro r' h1
          exact absurd h1 (by decide)]
        intro hcon
        have : replacePct20 (d :: rr2) = '0' :: t := List.tail_eq_of_cons_eq hcon
        rcases rr2 with _ | ⟨e, rr3⟩
        · rw [show replacePct20 [d] = [d] from by
            rw [replacePct20]
            · rw [replacePct20]
            · intro r' h1 h2
              simp at h2] at this
          exact hd (List.head_eq_of_cons_eq this)
        · by_cases hpat : d = '%' ∧ e = '2' ∧ ∃ u, rr3 = '0' :: u
          · rcases hpat with ⟨h1, h2, u, h3⟩
            subst h1; subst h2; subst h3
            rw [replacePct20] at this
            exact absurd (List.head_eq_of_cons_eq this) (by decide)
          · rw [show replacePct20 (d :: e :: rr3) = d :: replacePct20 (e :: rr3) from by
              rw [replacePct20]
              intro r' h1 h2
              rcases List.cons_eq_cons.mp h2 with ⟨h2a, h2b⟩
              exact hpat ⟨h1, h2a, r', h2b⟩] at this
            exact hd (List.head_eq_of_cons_eq this)
    · by_cases hpat : c = '%' ∧ ∃ u, rr = '2' :: '0' :: u
      · rcases hpat with ⟨h1, u, h2⟩
        subst h1; subst h2
        rw [replacePct20]
        intro hcon
        exact absurd (List.head_eq_of_cons_eq hcon) (by decide)
      · rw [show replacePct20 (c :: rr) = c :: replacePct20 rr from by
          rw [replacePct20]
          intro r' h1 h2
          exact hpat ⟨h1, r', h2⟩]
        intro hcon
        exact hc (List.head_eq_of_cons_eq hcon)

theorem replacePct20_idem (s : List Char) :
    replacePct20 (replacePct20 s) = replacePct20 s := by
  induction s using replacePct20.induct with
  | case1 rest ih =>
    rw [replacePct20]
    rw [show replacePct20 ('_' :: replacePct20 rest)
        = '_' :: replacePct20 (replacePct20 rest) from by
      rw [replacePct20]
      intro r' h1
      exact absurd h1 (by decide)]
    rw [ih]
  | case2 d rest hne ih =>
    rw [replacePct20]
    · by_cases hd : d = '%'
      · subst hd
        have hr : ∀ t, rest ≠ '2' :: '0' :: t := fun t ht => hne t rfl ht
        rw [show replacePct20 ('%' :: replacePct20 rest)
            = '%' :: replacePct20 (replacePct20 rest) from by
          rw [replacePct20]
          intro r' _ h2
          exact replacePct20_not_start20 rest hr r' h2]
        rw [ih]
      · rw [show replacePct20 (d :: replacePct20 rest)
            = d :: replacePct20 (replacePct20 rest) from by
          rw [replacePct20]
          intro r' h1
          exact absurd h1 hd]
        rw [ih]
    · exact hne
  | case3 => simp [replacePct20]

theorem replaceChar_space_head (c d : Char) (hd : d ≠ '_')
    (h : (if c = ' ' then '_' else c) = d) : c = d := by
  by_cases hc : c = ' '
  · rw [if_pos hc] at h
    exact absurd h.symm hd
  · rwa [if_neg hc] at h

theorem replacePct20_replaceChar_space (s : List Char) :
    replacePct20 (replaceChar ' ' '_' s) = replaceChar ' ' '_' (replacePct20 s) := by
  induction s using replacePct20.induct with
  | case1 rest ih =>
    rw [show replaceChar ' ' '_' ('%' :: '2' :: '0' :: rest)
        = '%' :: '2' :: '0' :: replaceChar ' ' '_' rest from by
      simp [replaceChar]]
    rw [replacePct20, replacePct20, ih]
    simp [replaceChar]
  | case2 d rest hne ih =>
    rw [show replaceChar ' ' '_' (d :: rest)
        = (if d = ' ' then '_' else d) :: replaceChar ' ' '_' rest from by
      simp [replaceChar]]
    rw [show replacePct20 ((if d = ' ' then '_' else d) :: replaceChar ' ' '_' rest)
        = (if d = ' ' then '_' else d) :: replacePct20 (replaceChar ' ' '_' rest) from by
      rw [replacePct20]
      intro r' h1 h2
      have hd : d = '%' := replaceChar_space_head d '%' (by decide) h1
      unfold replaceChar at h2
      rcases rest with _ | ⟨e, rest2⟩
      · simp at h2
      · simp only [List.map_cons] at h2
        rcases List.cons_eq_cons.mp h2 with ⟨h2a, h2b⟩
        have he : e = '2' := replaceChar_space_head e '2' (by decide) h2a
        rcases rest2 with _ | ⟨f, rest3⟩
        · simp at h2b
        · simp only [List.map_cons] at h2b
          rcases List.cons_eq_cons.mp h2b with ⟨h2c, h2d⟩
          have hf : f = '0' := replaceChar_space_head f '0' (by decide) h2c
          exact hne rest3 hd (by rw [he, hf])]
    rw [ih, replacePct20]
    · simp [replaceChar]
    · exact hne
  | case3 => simp [replacePct20, replaceChar]

theorem replaceChar_space_idem (s : List Char) :
    replaceChar ' ' '_' (replaceChar ' ' '_' s) = replaceChar ' ' '_' s := by
  unfold replaceChar
  rw [List.map_map]
  apply List.map_congr_left
  intro c _
  by_cases hc : c = ' ' <;> simp [hc]

theorem sanitize_filename_idem (s : List Char) :
    sanitize_filename (sanitize_filename s) = sanitize_filename s := by
  unfold sanitize_filename
  rw [replacePct20_replaceChar_space, replacePct20_idem, replaceChar_space_idem]

/-! ### Splitting and joining paths -/

theorem splitSlash_ne_nil (s : List Char) : splitSlash s ≠ [] := by
  induction s with
  | nil => simp [splitSlash]
  | cons c rest ih =>
    rw [splitSlash]
    by_cases hc : c = '/'
    · simp [hc]
    · rw [if_neg hc]
      rcases h : splitSlash rest with _ | ⟨seg, segs⟩
      · simp
      · simp

theorem splitSlash_no_slash (s : List Char) :
    ∀ seg ∈ splitSlash s, '/' ∉ seg := by
  induction s with
  | nil => simp [splitSlash]
  | cons c rest ih =>
    intro seg hseg
    rw [splitSlash] at hseg
    by_cases hc : c = '/'
    · rw [if_pos hc] at hseg
      rcases List.mem_cons.mp hseg with h | h
      · simp [h]
      · exact ih seg h
    · rw [if_neg hc] at hseg
      rcases hsp : splitSlash rest with _ | ⟨seg0, segs⟩
      · exact absurd hsp (splitSlash_ne_nil rest)
      · rw [hsp] at hseg
        rcases List.mem_cons.mp hseg with h | h
        · subst h
          intro hmem
          rcases List.mem_cons.mp hmem with h | h
          · exact hc h.symm
          · exact ih seg0 (by rw [hsp]; exact List.mem_cons_self _ _) h
        · exact ih seg (by rw [hsp]; exact List.mem_cons_of_mem _ h)

theorem splitSlash_mem_subset (s : List Char) :
    ∀ seg ∈ splitSlash s, ∀ c ∈ seg, c ∈ s := by
  induction s with
  | nil => simp [splitSlash]
  | cons d rest ih =>
    intro seg hseg c hc
    rw [splitSlash] at hseg
    by_cases hd : d = '/'
    · rw [if_pos hd] at hseg
      rcases List.mem_cons.mp hseg with h | h
      · simp [h] at hc
      · exact List.mem_cons_of_mem _ (ih seg h c hc)
    · rw [if_neg hd] at hseg
      rcases hsp : splitSlash rest with _ | ⟨seg0, segs⟩
      · exact absurd hsp (splitSlash_ne_nil rest)
      · rw [hsp] at hseg
        rcases List.mem_cons.mp hseg with h | h
        · subst h
          rcases List.mem_cons.mp hc with h | h
          · simp [h]
          · exact List.mem_cons_of_mem _
              (ih seg0 (by rw [hsp]; exact List.mem_cons_self _ _) c h)
        · exact List.mem_cons_of_mem _
            (ih seg (by rw [hsp]; exact List.mem_cons_of_mem _ h) c hc)

theorem splitSlash_of_no_slash (s : List Char) (h : '/' ∉ s) :
    splitSlash s = [s] := by
  induction s with
  | nil => rfl
  | cons c rest ih =>
    rw [splitSlash, if_neg (fun hc => h (by simp [hc]))]
    rw [ih (fun hm => h (List.mem_cons_of_mem _ hm))]

theorem splitSlash_append (s t : List Char) (h : '/' ∉ s) :
    splitSlash (s ++ '/' :: t) = s :: splitSlash t := by
  induction s with
  | nil => simp [splitSlash]
  | cons c rest ih =>
    rw [List.cons_append, splitSlash, if_neg (fun hc => h (by simp [hc]))]
    rw [ih (fun hm => h (List.mem_cons_of_mem _ hm))]

theorem join_split (segs : List (List Char)) (hs : ∀ seg ∈ segs, '/' ∉ seg)
    (hne : segs ≠ []) : splitSlash (joinSlash segs) = segs := by
  induction segs using joinSlash.induct with
  | case1 => exact absurd rfl hne
  | case2 s =>
    rw [joinSlash]
    exact splitSlash_of_no_slash s (hs s (List.mem_cons_self _ _))
  | case3 s s2 hres ih =>
    rw [joinSlash]
    · rw [splitSlash_append s _ (hs s (List.mem_cons_self _ _))]
      rw [ih (fun seg hseg => hs seg (List.mem_cons_of_mem _ hseg)) (fun h => hres h)]
    · exact hres

theorem mem_joinSlash (c : Char) (segs : List (List Char)) :
    c ∈ joinSlash segs → c = '/' ∨ ∃ s ∈ segs, c ∈ s := by
  induction segs using joinSlash.induct with
  | case1 => simp [joinSlash]
  | case2 s =>
    intro h
    rw [joinSlash] at h
    exact Or.inr ⟨s, List.mem_cons_self _ _, h⟩
  | case3 s s2 hres ih =>
    intro h
    rw [joinSlash] at h
    · rcases List.mem_append.mp h with h | h
      · exact Or.inr ⟨s, List.mem_cons_self _ _, h⟩
      · rcases List.mem_cons.mp h with h | h
        · exact Or.inl h
        · rcases ih h with h | ⟨s', hs', hc⟩
          · exact Or.inl h
          · exact Or.inr ⟨s', List.mem_cons_of_mem _ hs', hc⟩
    · exact hres

/-- C7's core on segment lists: the characters of a sanitized path. -/
theorem mem_sanitize_path (c : Char) (p : List Char) :
    c ∈ sanitize_path p → (c ∈ p ∧ c ≠ '\\') ∨ c = '/' ∨ c = '_' := by
  intro h
  unfold sanitize_path at h
  rcases mem_joinSlash c _ h with h | ⟨s, hs, hc⟩
  · right; left; exact h
  · rcases List.mem_map.mp hs with ⟨seg, hseg, hsf⟩
    rcases mem_sanitize_filename c seg (hsf ▸ hc) with h | h
    · have hcp : c ∈ replaceChar '\\' '/' p := splitSlash_mem_subset _ seg hseg c h
      by_cases hcb : c = '\\'
      · exact absurd (hcb ▸ hcp) (not_mem_replaceChar '\\' '/' p (by decide))
      · rcases mem_replaceChar '\\' '/' c p hcp with h' | h'
        · exact Or.inl ⟨h', hcb⟩
        · right; left; exact h'
    · right; right; exact h

theorem sanitize_path_no_backslash (p : List Char) : '\\' ∉ sanitize_path p := by
  intro h
  rcases mem_sanitize_path '\\' p h with ⟨_, hne⟩ | h | h
  · exact hne rfl
  · exact absurd h (by decide)
  · exact absurd h (by decide)

/-- C7: `sanitize_path` is idempotent. -/
theorem sanitize_path_idem (p : List Char) :
    sanitize_path (sanitize_path p) = sanitize_path p := by
  conv_lhs => rw [sanitize_path]
  rw [replaceChar_eq_self _ _ _ (sanitize_path_no_backslash p)]
  rw [show sanitize_path p
      = joinSlash ((splitSlash (replaceChar '\\' '/' p)).map sanitize_filename) from rfl]
  rw [join_split]
  · rw [List.map_map]
    have : ∀ seg ∈ splitSlash (replaceChar '\\' '/' p),
        (sanitize_filename ∘ sanitize_filename) seg = sanitize_filename seg :=
      fun seg _ => sanitize_filename_idem seg
    rw [List.map_congr_left this]
  · intro seg hseg
    rcases List.mem_map.mp hseg with ⟨seg0, hseg0, hsf⟩
    intro hmem
    rcases mem_sanitize_filename '/' seg0 (hsf ▸ hmem) with h | h
    · exact splitSlash_no_slash _ seg0 hseg0 h
    · exact absurd h (by decide)
  · simp only [ne_eq, List.map_eq_nil_iff]
    exact splitSlash_ne_nil _

/-! ### The relative-path calculation walks back to its target -/

theorem relpathSegs_nil_from (ts : List (List Char)) : relpathSegs ts [] = ts := by
  cases ts <;> simp [relpathSegs]

theorem relpathSegs_shape (fs ts : List (List Char)) :
    ∃ j k, j ≤ fs.length ∧
      relpathSegs ts fs = List.replicate j ['.', '.'] ++ ts.drop k := by
  induction fs generalizing ts with
  | nil => exact ⟨0, 0, le_refl _, by simp [relpathSegs_nil_from]⟩
  | cons f fs' ih =>
    rcases ts with _ | ⟨t, ts'⟩
    · exact ⟨fs'.length + 1, 0, by simp, by simp [relpathSegs]⟩
    · by_cases ht : t = f
      · rcases ih ts' with ⟨j, k, hj, heq⟩
        exact ⟨j, k + 1, Nat.le_succ_of_le hj, by simp [relpathSegs, ht, heq]⟩
      · exact ⟨fs'.length + 1, 0, le_refl _, by simp [relpathSegs, ht]⟩

theorem mem_relpathSegs (seg : List Char) (fs ts : List (List Char)) :
    seg ∈ relpathSegs ts fs → seg = ['.', '.'] ∨ seg ∈ ts := by
  induction fs generalizing ts with
  | nil => rw [relpathSegs_nil_from]; exact Or.inr
  | cons f fs' ih =>
    rcases ts with _ | ⟨t, ts'⟩
    · intro h
      simp only [relpathSegs, List.append_nil] at h
      exact Or.inl (List.eq_of_mem_replicate h)
    · intro h
      by_cases ht : t = f
      · simp only [relpathSegs, ht, if_true] at h
        rcases ih ts' h with h | h
        · exact Or.inl h
        · exact Or.inr (List.mem_cons_of_mem _ h)
      · simp only [relpathSegs, ht, if_false, List.mem_append] at h
        rcases h with h | h
        · exact Or.inl (List.eq_of_mem_replicate h)
        · exact Or.inr h

theorem relpathSegs_eq_nil (fs ts : List (List Char))
    (h : relpathSegs ts fs = []) : ts = fs := by
  induction fs generalizing ts with
  | nil => rwa [relpathSegs_nil_from] at h
  | cons f fs' ih =>
    rcases ts with _ | ⟨t, ts'⟩
    · simp [relpathSegs] at h
    · by_cases ht : t = f
      · simp only [relpathSegs, ht, if_true] at h
        rw [ht, ih ts' h]
      · simp [relpathSegs, ht] at h

theorem walk_append (d r1 r2 : List (List Char)) :
    walk d (r1 ++ r2) = walk (walk d r1) r2 := by
  simp [walk, List.foldl_append]

theorem walk_plain (d rel : List (List Char))
    (h : ∀ s ∈ rel, s ≠ ['.', '.'] ∧ s ≠ ['.']) : walk d rel = d ++ rel := by
  induction rel generalizing d with
  | nil => simp [walk]
  | cons r rest ih =>
    have hr := h r (List.mem_cons_self _ _)
    rw [show walk d (r :: rest) = walk (d ++ [r]) rest from by
      simp [walk, hr.1, hr.2]]
    rw [ih _ (fun s hs => h s (List.mem_cons_of_mem _ hs))]
    simp

theorem walk_dotdot (d : List (List Char)) (rel : List (List Char)) :
    walk d (['.', '.'] :: rel) = walk d.dropLast rel := by
  simp [walk]

theorem walk_replicate_nil (d : List (List Char)) :
    walk d (List.replicate d.length ['.', '.']) = [] := by
  induction d using List.reverseRecOn with
  | nil => simp [walk]
  | append_singleton d' x ih =>
    rw [List.length_append, List.length_singleton, List.replicate_succ,
      walk_dotdot, List.dropLast_concat, ih]

theorem walk_cons_replicate (f : List Char) (fs : List (List Char)) (j : Nat)
    (h : j ≤ fs.length) :
    walk (f :: fs) (List.replicate j ['.', '.'])
      = f :: walk fs (List.replicate j ['.', '.']) := by
  induction j generalizing fs with
  | zero => simp [walk]
  | succ j ih =>
    rcases fs with _ | ⟨g, gs⟩
    · simp at h
    · rw [List.replicate_succ, walk_dotdot, walk_dotdot,
        List.dropLast_cons₂, ih _ (by simpa [Nat.succ_le_succ_iff] using h)]

theorem relpath_walk (fs ts : List (List Char))
    (h : ∀ s ∈ ts, s ≠ ['.', '.'] ∧ s ≠ ['.']) :
    walk fs (relpathSegs ts fs) = ts := by
  induction fs generalizing ts with
  | nil => rw [relpathSegs_nil_from]; exact walk_plain [] ts h
  | cons f fs' ih =>
    rcases ts with _ | ⟨t, ts'⟩
    · simp only [relpathSegs, List.append_nil]
      exact walk_replicate_nil (f :: fs')
    · by_cases ht : t = f
      · simp only [relpathSegs, ht, if_true]
        rcases relpathSegs_shape fs' ts' with ⟨j, k, hj, heq⟩
        have hdrop : ∀ s ∈ ts'.drop k, s ≠ ['.', '.'] ∧ s ≠ ['.'] := by
          intro s hs
          exact h s (List.mem_cons_of_mem _ (List.mem_of_mem_drop hs))
        have hih := ih ts' (fun s hs => h s (List.mem_cons_of_mem _ hs))
        rw [heq] at hih ⊢
        rw [walk_append] at hih ⊢
        rw [walk_cons_replicate f fs' j hj]
        rw [walk_plain _ _ hdrop] at hih ⊢
        rw [List.cons_append, hih]
      · simp only [relpathSegs, ht, if_false]
        rw [walk_append]
        rw [show (fs'.length + 1) = (f :: fs').length from by simp,
          walk_replicate_nil]
        exact walk_plain [] _ h

/-! ### Glue: sanitized trees yield plain paths, and the relative path of a
plain target walks back to it -/

theorem joinSlash_no_char (a : Char) (segs : List (List Char)) (ha : a ≠ '/')
    (h : ∀ s ∈ segs, a ∉ s) : a ∉ joinSlash segs := by
  intro hm
  rcases mem_joinSlash a segs hm with h' | ⟨s, hs, hc⟩
  · exact ha h'
  · exact h s hs hc

theorem normSegs_plain (segs : List (List Char)) (h : ∀ s ∈ segs, plainSeg s) :
    normSegs segs = segs := by
  unfold normSegs
  apply List.filter_eq_self.mpr
  intro s hs
  simp only [decide_eq_true_eq]
  exact ⟨(h s hs).1, (h s hs).2.1⟩

/-- The round-trip of C1's relative-path composition over plain segment
lists: walking the computed relative path from the referencing document's
directory lands on the target. -/
theorem walk_get_relative_path (cs ps : List (List Char))
    (hcs : plainPath cs) (hps : plainPath ps) :
    walk cs.dropLast (splitSlash (get_relative_path (joinSlash cs) (joinSlash ps))) = ps := by
  have hcs' := hcs.2
  have hps' := hps.2
  have hbcs : '\\' ∉ joinSlash cs :=
    joinSlash_no_char _ _ (by decide) (fun s hs => (hcs' s hs).2.2.2.2)
  have hbps : '\\' ∉ joinSlash ps :=
    joinSlash_no_char _ _ (by decide) (fun s hs => (hps' s hs).2.2.2.2)
  have hscs : splitSlash (joinSlash cs) = cs :=
    join_split _ (fun s hs => (hcs' s hs).2.2.2.1) hcs.1
  have hsps : splitSlash (joinSlash ps) = ps :=
    join_split _ (fun s hs => (hps' s hs).2.2.2.1) hps.1
  unfold get_relative_path
  rw [replaceChar_eq_self _ _ _ hbcs, replaceChar_eq_self _ _ _ hbps, hscs, hsps,
    normSegs_plain cs hcs', normSegs_plain ps hps']
  by_cases hrel : relpathSegs ps cs.dropLast = []
  · rw [if_pos hrel]
    have hps_eq : ps = cs.dropLast := relpathSegs_eq_nil _ _ hrel
    rw [show splitSlash ['.'] = [['.']] from rfl]
    rw [show walk cs.dropLast [['.']] = cs.dropLast from by simp [walk]]
    exact hps_eq.symm
  · rw [if_neg hrel]
    have hnos : ∀ seg ∈ relpathSegs ps cs.dropLast, '/' ∉ seg := by
      intro seg hseg
      rcases mem_relpathSegs seg _ _ hseg with h | h
      · rw [h]; decide
      · exact (hps' seg h).2.2.2.1
    rw [join_split _ hnos hrel]
    exact relpath_walk _ _ (fun s hs => ⟨(hps' s hs).2.2.1, (hps' s hs).2.1⟩)

theorem sanitize_filename_no_slash (s : List Char) (h : '/' ∉ s) :
    '/' ∉ sanitize_filename s := by
  intro hm
  rcases mem_sanitize_filename _ _ hm with h' | h'
  · exact h h'
  · exact absurd h' (by decide)

theorem sanitize_filename_no_backslash (s : List Char) (h : '\\' ∉ s) :
    '\\' ∉ sanitize_filename s := by
  intro hm
  rcases mem_sanitize_filename _ _ hm with h' | h'
  · exact h h'
  · exact absurd h' (by decide)

theorem pathOf_join (parts : List (List Char)) (h : ∀ s ∈ parts, '\\' ∉ s) :
    pathOf parts = joinSlash (parts.map sanitize_filename) := by
  unfold pathOf
  apply replaceChar_eq_self
  apply joinSlash_no_char _ _ (by decide)
  intro s hs
  rcases List.mem_map.mp hs with ⟨seg, hseg, rfl⟩
  exact sanitize_filename_no_backslash seg (h seg hseg)

theorem plainPath_sanitized (parts : List (List Char)) (hwf : wfFile parts)
    (hnh : isHidden parts = false) : plainPath (parts.map sanitize_filename) := by
  constructor
  · simp only [ne_eq, List.map_eq_nil_iff]
    exact hwf.1
  · intro s hs
    rcases List.mem_map.mp hs with ⟨seg, hseg, rfl⟩
    have hseg' := hwf.2 seg hseg
    have hnd : startsDotUnder seg = false := by
      by_contra hsd
      have hT : isHidden parts = true := by
        rw [isHidden, List.any_eq_true]
        exact ⟨seg, hseg, by simpa using hsd⟩
      rw [hT] at hnh
      exact absurd hnh (by decide)
    refine ⟨sanitize_filename_ne_nil seg hseg'.1, ?_, ?_,
      sanitize_filename_no_slash seg hseg'.2.1,
      sanitize_filename_no_backslash seg hseg'.2.2⟩
    · intro hdot
      rcases sanitize_filename_head_dot seg [] hdot with ⟨u, hu⟩
      rw [hu] at hnd
      simp [startsDotUnder] at hnd
    · intro hdd
      rcases sanitize_filename_head_dot seg ['.'] hdd with ⟨u, hu⟩
      rw [hu] at hnd
      simp [startsDotUnder] at hnd

theorem splitSlash_pathOf (parts : List (List Char)) (hwf : wfFile parts) :
    splitSlash (pathOf parts) = parts.map sanitize_filename := by
  rw [pathOf_join parts (fun s hs => (hwf.2 s hs).2.2)]
  apply join_split
  · intro seg hseg
    rcases List.mem_map.mp hseg with ⟨seg0, hseg0, rfl⟩
    exact sanitize_filename_no_slash seg0 (hwf.2 seg0 hseg0).2.1
  · simp only [ne_eq, List.map_eq_nil_iff]
    exact hwf.1

theorem lastSlashSeg_pathOf (parts : List (List Char)) (hwf : wfFile parts) :
    lastSlashSeg (pathOf parts) = fnameOf parts := by
  rw [lastSlashSeg, splitSlash_pathOf parts hwf, fnameOf]
  induction parts using List.reverseRecOn with
  | nil => exact absurd rfl hwf.1
  | append_singleton l x _ => simp

theorem pathsFor_spec (key p : List Char) (tree : List (List (List Char)))
    (h : p ∈ pathsFor key tree) :
    ∃ parts ∈ tree, isHidden parts = false ∧ fnameOf parts = key ∧ p = pathOf parts := by
  rcases List.mem_filterMap.mp h with ⟨parts, hmem, hcond⟩
  by_cases hc : isHidden parts = false ∧ fnameOf parts = key
  · rw [if_pos hc] at hcond
    exact ⟨parts, hmem, hc.1, hc.2, (Option.some.inj hcond).symm⟩
  · rw [if_neg hc] at hcond
    exact absurd hcond (by simp)

theorem pathsFor_mem_allPaths (key p : List Char) (tree : List (List (List Char)))
    (h : p ∈ pathsFor key tree) : p ∈ allPathsOf tree := by
  rcases pathsFor_spec key p tree h with ⟨parts, hmem, hnh, _, rfl⟩
  exact List.mem_filterMap.mpr ⟨parts, hmem, by rw [if_pos hnh]⟩

theorem filterMap_sublist_mono {α β : Type _} (f g : α → Option β) (l : List α)
    (h : ∀ x y, f x = some y → g x = some y) :
    (l.filterMap f).Sublist (l.filterMap g) := by
  induction l with
  | nil => simp
  | cons x l ih =>
    rw [List.filterMap_cons, List.filterMap_cons]
    rcases hf : f x with _ | y
    · rcases hg : g x with _ | z
      · exact ih
      · exact ih.cons z
    · rw [h x y hf]
      exact ih.cons₂ y

theorem pathsFor_sublist_allPaths (key : List Char) (tree : List (List (List Char))) :
    (pathsFor key tree).Sublist (allPathsOf tree) := by
  apply filterMap_sublist_mono
  intro x y hxy
  by_cases hc : isHidden x = false ∧ fnameOf x = key
  · rw [if_pos hc] at hxy
    rw [if_pos hc.1]
    exact hxy
  · rw [if_neg hc] at hxy
    exact absurd hxy (by simp)

/-! ### The claims -/

/-- C7: for every input string `p`,
`sanitize_path (sanitize_path p) = sanitize_path p` — path sanitization
(replacing each space and each `%20` token with underscore in every segment,
rejoining with forward slashes) is idempotent on all inputs. -/
theorem c7_sanitize_idempotent :
    ∀ p : List Char, sanitize_path (sanitize_path p) = sanitize_path p :=
  sanitize_path_idem

/-- C9: the typographic fix-up phase replaces every en-dash, em-dash and
minus-sign code point with a plain hyphen and prefixes every literal `@` with
a backslash (stated as the per-character reading `perCharFix`); in particular
`range 10–20 @50mT` becomes exactly `range 10-20 \@50mT`. -/
theorem c9_typographic :
    fix_text_issues "range 10–20 @50mT".data = "range 10-20 \\@50mT".data
    ∧ ∀ s : List Char, fix_text_issues s = perCharFix s := by
  constructor
  · decide
  · intro s
    induction s with
    | nil => rfl
    | cons c rest ih =>
      unfold fix_text_issues at ih ⊢
      simp only [replaceChar, List.map_cons]
      rw [perCharFix]
      by_cases h1 : c = '–'
      · subst h1
        simp [escapeAt, dashAtFix, ← ih, replaceChar]
      · by_cases h2 : c = '—'
        · subst h2
          simp [escapeAt, dashAtFix, ← ih, replaceChar, h1]
        · by_cases h3 : c = '−'
          · subst h3
            simp [escapeAt, dashAtFix, ← ih, replaceChar, h1, h2]
          · by_cases h4 : c = '@'
            · subst h4
              simp [escapeAt, dashAtFix, ← ih, replaceChar, h1, h2, h3]
            · simp [escapeAt, dashAtFix, ← ih, replaceChar, h1, h2, h3, h4]

/-- C4: a bare-filename reference whose sanitized form is not a key of the
file index resolves, from any document, to the original embedded-reference
syntax `![[raw]]` completely unconverted; the miss is non-fatal (the
replacement is total). -/
theorem c4_unresolved_passthrough (raw current : List Char)
    (file_index : List (List Char × Entry)) (path_set : List (List Char))
    (hbare : containsSep raw = false)
    (hmiss : lookupIdx file_index (sanitize_filename raw) = none) :
    obsidianReplacement raw current file_index path_set =
      "![[".data ++ raw ++ "]]".data := by
  unfold obsidianReplacement
  rw [hbare]
  simp only [Bool.false_eq_true, if_false, hmiss]

theorem c4_unresolved_passthrough_witness :
    containsSep "missing.png".data = false
    ∧ lookupIdx (build_file_index [["a".data, "img.png".data]]).1
        (sanitize_filename "missing.png".data) = none
    ∧ obsidianReplacement "missing.png".data "notes/doc.md".data
        (build_file_index [["a".data, "img.png".data]]).1
        (build_file_index [["a".data, "img.png".data]]).2
      = "![[".data ++ "missing.png".data ++ "]]".data :=
  ⟨by decide, by decide,
    c4_unresolved_passthrough _ _ _ _ (by decide) (by decide)⟩

/-- C3: whenever the index built from a tree records several paths under a
bare filename's sanitized form (`pathsFor` lists them in traversal order),
resolving that bare filename from any document uses the first-seen candidate
`p`, and resolution always returns (ambiguity never halts processing). -/
theorem c3_ambiguity_first (tree : List (List (List Char)))
    (raw current p q : List Char) (qs : List (List Char))
    (hbare : containsSep raw = false)
    (hdup : pathsFor (sanitize_filename raw) tree = p :: q :: qs) :
    obsidianReplacement raw current (build_file_index tree).1
        (build_file_index tree).2 =
      if pySuffixLower raw ∈ IMAGE_EXTENSIONS then
        "![](".data ++ get_relative_path current p ++ ")".data
      else
        "[Download ".data ++ raw ++ "](".data
          ++ get_relative_path current p ++ ")".data := by
  have hlook := build_file_index_lookup tree (sanitize_filename raw)
  rw [hdup] at hlook
  unfold obsidianReplacement
  rw [hbare]
  simp only [Bool.false_eq_true, if_false, hlook, List.headD_cons]

theorem c3_ambiguity_first_witness :
    containsSep "x.png".data = false
    ∧ pathsFor (sanitize_filename "x.png".data)
        [["a".data, "x.png".data], ["b".data, "x.png".data]]
      = ["a/x.png".data, "b/x.png".data]
    ∧ obsidianReplacement "x.png".data "doc.md".data
        (build_file_index [["a".data, "x.png".data], ["b".data, "x.png".data]]).1
        (build_file_index [["a".data, "x.png".data], ["b".data, "x.png".data]]).2
      = if pySuffixLower "x.png".data ∈ IMAGE_EXTENSIONS then
          "![](".data ++ get_relative_path "doc.md".data "a/x.png".data ++ ")".data
        else
          "[Download ".data ++ "x.png".data ++ "](".data
            ++ get_relative_path "doc.md".data "a/x.png".data ++ ")".data :=
  ⟨by decide, by decide,
    c3_ambiguity_first [["a".data, "x.png".data], ["b".data, "x.png".data]]
      "x.png".data "doc.md".data "a/x.png".data "b/x.png".data []
      (by decide) (by decide)⟩

/-- C2: an explicit-path reference (one containing a separator) resolves with
this precedence: a sanitized reference present verbatim in `path_set` is
output relative to the current document (the root-relative interpretation
wins whether or not the document-relative candidate also exists); otherwise
the sanitized reference itself is emitted — both when the candidate built
from the current document's directory is present and when nothing is found —
so resolution never fails hard. -/
theorem c2_explicit_precedence (raw current : List Char)
    (file_index : List (List Char × Entry)) (path_set : List (List Char))
    (hsep : containsSep raw = true) :
    (sanitize_path raw ∈ path_set →
      obsidianReplacement raw current file_index path_set =
        if pySuffixLower raw ∈ IMAGE_EXTENSIONS then
          "![](".data ++ get_relative_path current (sanitize_path raw) ++ ")".data
        else
          "[Download ".data ++ pyName raw ++ "](".data
            ++ get_relative_path current (sanitize_path raw) ++ ")".data)
    ∧ (sanitize_path raw ∉ path_set →
        obsidianReplacement raw current file_index path_set =
          if pySuffixLower raw ∈ IMAGE_EXTENSIONS then
            "![](".data ++ sanitize_path raw ++ ")".data
          else
            "[Download ".data ++ pyName raw ++ "](".data
              ++ sanitize_path raw ++ ")".data) := by
  unfold obsidianReplacement
  rw [hsep]
  simp only [if_true]
  constructor
  · intro hin
    rw [if_pos hin]
  · intro hout
    rw [if_neg hout]
    split_ifs <;> rfl

theorem c2_explicit_precedence_witness :
    containsSep "sub/x.png".data = true
    ∧ sanitize_path "sub/x.png".data ∈ ["sub/x.png".data, "a/sub/x.png".data]
    ∧ ((sanitize_path "sub/x.png".data ∈ ["sub/x.png".data, "a/sub/x.png".data] →
        obsidianReplacement "sub/x.png".data "a/doc.md".data []
            ["sub/x.png".data, "a/sub/x.png".data] =
          if pySuffixLower "sub/x.png".data ∈ IMAGE_EXTENSIONS then
            "![](".data ++ get_relative_path "a/doc.md".data
              (sanitize_path "sub/x.png".data) ++ ")".data
          else
            "[Download ".data ++ pyName "sub/x.png".data ++ "](".data
              ++ get_relative_path "a/doc.md".data (sanitize_path "sub/x.png".data)
              ++ ")".data)
      ∧ (sanitize_path "sub/x.png".data ∉ ["sub/x.png".data, "a/sub/x.png".data] →
          obsidianReplacement "sub/x.png".data "a/doc.md".data []
              ["sub/x.png".data, "a/sub/x.png".data] =
            if pySuffixLower "sub/x.png".data ∈ IMAGE_EXTENSIONS then
              "![](".data ++ sanitize_path "sub/x.png".data ++ ")".data
            else
              "[Download ".data ++ pyName "sub/x.png".data ++ "](".data
                ++ sanitize_path "sub/x.png".data ++ ")".data)) :=
  ⟨by decide, by decide,
    c2_explicit_precedence _ _ _ _ (by decide)⟩

/-- C5 counterexample: a standard image link whose URL begins with `http://`
is not byte-identical after the full pipeline even though the typographic
phase is the identity on this input — the URL-sanitization phase rewrote its
`%20` to `_`. -/
theorem c5_external_counterexample :
    process_markdown_content "![x](http://e.com/a%20b.png)".data "doc.md".data [] []
      = "![x](http://e.com/a_b.png)".data
    ∧ fix_text_issues "![x](http://e.com/a%20b.png)".data
      = "![x](http://e.com/a%20b.png)".data := by
  constructor
  · decide
  · decide

/-- C5 (amended): the root-relative rewrite step leaves standard image links
with URLs beginning `http://`, `https://` or `data:` unchanged, and
sanitizes non-external URLs, rewriting those matching an indexed
root-relative path relative to the current document; but the earlier
URL-sanitization phase sanitizes every URL, external ones included, so an
external URL containing `%20` is altered by the full pipeline. -/
theorem c5_external_amended (alt url current : List Char)
    (path_set : List (List Char)) :
    (isExternalUrl url = true →
      rewriteReplacement alt url current path_set =
        "![".data ++ alt ++ "](".data ++ url ++ ")".data)
    ∧ (isExternalUrl url = false → sanitize_path url ∈ path_set →
        rewriteReplacement alt url current path_set =
          "![".data ++ alt ++ "](".data
            ++ get_relative_path current (sanitize_path url) ++ ")".data)
    ∧ (isExternalUrl url = false → sanitize_path url ∉ path_set →
        rewriteReplacement alt url current path_set =
          "![".data ++ alt ++ "](".data ++ sanitize_path url ++ ")".data)
    ∧ normalize_markdown_link_urls "![x](http://e.com/a%20b.png)".data
      = "![x](http://e.com/a_b.png)".data := by
  refine ⟨fun hext => ?_, fun hext hin => ?_, fun hext hout => ?_, by decide⟩
  · unfold rewriteReplacement
    rw [hext]
    simp only [if_true]
  · unfold rewriteReplacement
    rw [hext]
    simp only [Bool.false_eq_true, if_false]
    rw [if_pos hin]
  · unfold rewriteReplacement
    rw [hext]
    simp only [Bool.false_eq_true, if_false]
    rw [if_neg hout]

theorem c5_external_amended_witness :
    isExternalUrl "http://e.com/a_b.png".data = true
    ∧ rewriteReplacement "x".data "http://e.com/a_b.png".data "doc.md".data []
      = "![".data ++ "x".data ++ "](".data ++ "http://e.com/a_b.png".data ++ ")".data :=
  ⟨by decide,
    (c5_external_amended "x".data "http://e.com/a_b.png".data "doc.md".data []).1
      (by decide)⟩

/-- C6 counterexample: on `![[a/b/x.png]]` in document `a/doc.md` over a tree
holding `a/b/x.png`, `b/x.png` and `a/doc.md`, the pipeline as implemented
emits `![](../b/x.png)` while the spec's claimed order (the whole of
standard-link sanitization, including the root-relative rewrite, before
embedded-reference conversion) would emit `![](b/x.png)` — so the rewrite of
root-relative URLs does not run before conversion. -/
theorem c6_phase_order_counterexample :
    process_markdown_content "![[a/b/x.png]]".data "a/doc.md".data
        (build_file_index [["a".data, "b".data, "x.png".data],
          ["b".data, "x.png".data], ["a".data, "doc.md".data]]).1
        (build_file_index [["a".data, "b".data, "x.png".data],
          ["b".data, "x.png".data], ["a".data, "doc.md".data]]).2
      = "![](../b/x.png)".data
    ∧ claimedOrderPipeline "![[a/b/x.png]]".data "a/doc.md".data
        (build_file_index [["a".data, "b".data, "x.png".data],
          ["b".data, "x.png".data], ["a".data, "doc.md".data]]).1
        (build_file_index [["a".data, "b".data, "x.png".data],
          ["b".data, "x.png".data], ["a".data, "doc.md".data]]).2
      = "![](b/x.png)".data := by
  constructor
  · decide
  · decide

/-- C6 (amended): the pipeline's fixed order is block-isolation, vendor
normalization, standard-link URL sanitization, embedded-reference
conversion, then the root-relative-to-document-relative rewrite of standard
image links, with typographic fix-up last — only the sanitization half of
standard-link handling precedes conversion; the root-relative rewrite runs
after it. -/
theorem c6_phase_order_amended :
    ∀ (content current_file : List Char) (file_index : List (List Char × Entry))
      (path_set : List (List Char)),
      process_markdown_content content current_file file_index path_set =
        fix_text_issues
          (rewrite_absolute_paths
            (convert_obsidian_links
              (normalize_markdown_link_urls
                (normalize_notion_folders (ensure_image_linebreaks content)))
              current_file file_index path_set)
            current_file path_set) :=
  fun _ _ _ _ => rfl

/-- C8 counterexample: the hidden file `_x.png` is skipped, yet its
SanitizedPath `_x.png` is in `path_set`, because the non-hidden file
` x.png` (leading space) sanitizes to the same path — so "its SanitizedPath
is not in allPaths" fails under sanitization collisions. -/
theorem c8_hidden_counterexample :
    isHidden ["_x.png".data] = true
    ∧ isHidden [" x.png".data] = false
    ∧ pathOf ["_x.png".data]
        ∈ (build_file_index [["_x.png".data], [" x.png".data]]).2 := by
  refine ⟨by decide, by decide, by decide⟩

theorem buildIndexAux_filter (tree : List (List (List Char)))
    (idx : List (List Char × Entry)) (pset : List (List Char)) :
    buildIndexAux tree idx pset =
      buildIndexAux (tree.filter (fun parts => !isHidden parts)) idx pset := by
  induction tree generalizing idx pset with
  | nil => rfl
  | cons parts rest ih =>
    by_cases hh : isHidden parts
    · simp only [buildIndexAux, hh, if_true, List.filter_cons, Bool.not_eq_true',
        hh, Bool.not_true, Bool.false_eq_true, if_false]
      exact ih idx pset
    · have hne : isHidden parts = false := by simpa using hh
      simp only [List.filter_cons, hne, Bool.not_false, if_true]
      rw [show buildIndexAux (parts :: rest) idx pset
          = buildIndexAux rest (indexInsert idx (fnameOf parts) (pathOf parts))
              (pset ++ [pathOf parts]) from by simp [buildIndexAux, hh]]
      rw [show buildIndexAux (parts :: List.filter (fun parts => !isHidden parts) rest)
            idx pset
          = buildIndexAux (List.filter (fun parts => !isHidden parts) rest)
              (indexInsert idx (fnameOf parts) (pathOf parts))
              (pset ++ [pathOf parts]) from by simp [buildIndexAux, hh]]
      exact ih _ _

/-- C8 (amended): every file with a segment starting `.` or `_` contributes
nothing to the index — building over the tree equals building over the tree
with all hidden files removed — though its SanitizedPath may still occur in
`allPaths` when a non-hidden file sanitizes to the same path. -/
theorem c8_hidden_amended :
    ∀ tree : List (List (List Char)),
      build_file_index tree =
        build_file_index (tree.filter (fun parts => !isHidden parts)) :=
  fun tree => buildIndexAux_filter tree [] []

/-- C1: a bare-filename reference whose sanitized form is indexed under
exactly one path `p` resolves, from any (plain) document `cs`, to a link
whose target is `get_relative_path` to `p`, and walking that target from the
referencing document's directory reaches exactly the indexed file's
SanitizedPath. -/
theorem c1_bare_roundtrip (tree : List (List (List Char))) (cs : List (List Char))
    (raw p : List Char)
    (hwf : wfTree tree) (hcs : plainPath cs)
    (hbare : containsSep raw = false)
    (huniq : pathsFor (sanitize_filename raw) tree = [p]) :
    obsidianReplacement raw (joinSlash cs) (build_file_index tree).1
        (build_file_index tree).2 =
      (if pySuffixLower raw ∈ IMAGE_EXTENSIONS then
        "![](".data ++ get_relative_path (joinSlash cs) p ++ ")".data
      else
        "[Download ".data ++ raw ++ "](".data
          ++ get_relative_path (joinSlash cs) p ++ ")".data)
    ∧ walk cs.dropLast (splitSlash (get_relative_path (joinSlash cs) p))
      = splitSlash p := by
  have hlook := build_file_index_lookup tree (sanitize_filename raw)
  rw [huniq] at hlook
  constructor
  · unfold obsidianReplacement
    rw [hbare]
    simp only [Bool.false_eq_true, if_false, hlook]
  · have hp : p ∈ pathsFor (sanitize_filename raw) tree := by
      rw [huniq]
      exact List.mem_cons_self _ _
    rcases pathsFor_spec _ _ _ hp with ⟨parts, hmem, hnh, _, rfl⟩
    have hwfp := hwf parts hmem
    have hplain : plainPath (parts.map sanitize_filename) :=
      plainPath_sanitized parts hwfp hnh
    rw [splitSlash_pathOf parts hwfp,
      pathOf_join parts (fun s hs => (hwfp.2 s hs).2.2)]
    exact walk_get_relative_path cs _ hcs hplain

theorem c1_bare_roundtrip_witness :
    wfTree [["notes".data, "a.md".data], ["assets".data, "diagram.png".data]]
    ∧ plainPath ["notes".data, "a.md".data]
    ∧ containsSep "diagram.png".data = false
    ∧ pathsFor (sanitize_filename "diagram.png".data)
        [["notes".data, "a.md".data], ["assets".data, "diagram.png".data]]
      = ["assets/diagram.png".data]
    ∧ (obsidianReplacement "diagram.png".data
          (joinSlash ["notes".data, "a.md".data])
          (build_file_index [["notes".data, "a.md".data],
            ["assets".data, "diagram.png".data]]).1
          (build_file_index [["notes".data, "a.md".data],
            ["assets".data, "diagram.png".data]]).2 =
        (if pySuffixLower "diagram.png".data ∈ IMAGE_EXTENSIONS then
          "![](".data ++ get_relative_path (joinSlash ["notes".data, "a.md".data])
            "assets/diagram.png".data ++ ")".data
        else
          "[Download ".data ++ "diagram.png".data ++ "](".data
            ++ get_relative_path (joinSlash ["notes".data, "a.md".data])
              "assets/diagram.png".data ++ ")".data)
      ∧ walk (["notes".data, "a.md".data]).dropLast
          (splitSlash (get_relative_path (joinSlash ["notes".data, "a.md".data])
            "assets/diagram.png".data))
        = splitSlash "assets/diagram.png".data) :=
  ⟨by decide, by decide, by decide, by decide,
    c1_bare_roundtrip
      [["notes".data, "a.md".data], ["assets".data, "diagram.png".data]]
      ["notes".data, "a.md".data] "diagram.png".data "assets/diagram.png".data
      (by decide) (by decide) (by decide) (by decide)⟩

/-- C10: in every index built from a well-formed tree, each `byFilename`
value path — the single-path form or any element of a list value — is a
member of `path_set`; every list value has at least two elements and is a
subsequence of the traversal-ordered `path_set`; and each stored path's
final segment is the sanitized filename under which it is keyed. -/
theorem c10_index_invariant (tree : List (List (List Char))) (hwf : wfTree tree)
    (key : List Char) (e : Entry)
    (hlook : lookupIdx (build_file_index tree).1 key = some e) :
    (∀ p, e = Entry.single p →
      p ∈ (build_file_index tree).2 ∧ lastSlashSeg p = key)
    ∧ (∀ ps, e = Entry.multi ps →
        2 ≤ ps.length ∧ ps.Sublist (build_file_index tree).2
        ∧ ∀ p ∈ ps, p ∈ (build_file_index tree).2 ∧ lastSlashSeg p = key) := by
  have hchar := build_file_index_lookup tree key
  rw [hlook] at hchar
  have hml : ∀ p ∈ pathsFor key tree,
      p ∈ (build_file_index tree).2 ∧ lastSlashSeg p = key := by
    intro p hp
    constructor
    · rw [build_file_index_pset]
      exact pathsFor_mem_allPaths key p tree hp
    · rcases pathsFor_spec _ _ _ hp with ⟨parts, hmemP, _, hfn, rfl⟩
      rw [lastSlashSeg_pathOf parts (hwf parts hmemP), hfn]
  have hsub : (pathsFor key tree).Sublist (build_file_index tree).2 := by
    rw [build_file_index_pset]
    exact pathsFor_sublist_allPaths key tree
  rcases hpf : pathsFor key tree with _ | ⟨p0, _ | ⟨p1, rest⟩⟩
  · rw [hpf] at hchar
    exact absurd hchar (by simp)
  · rw [hpf] at hchar
    have he : e = Entry.single p0 := by
      simpa using hchar
    subst he
    constructor
    · intro p hpe
      rw [show p = p0 from (Entry.single.inj hpe).symm]
      exact hml p0 (by rw [hpf]; exact List.mem_cons_self _ _)
    · intro ps hpe
      exact absurd hpe (by simp)
  · rw [hpf] at hchar
    have he : e = Entry.multi (p0 :: p1 :: rest) := by
      simpa using hchar
    subst he
    constructor
    · intro p hpe
      exact absurd hpe (by simp)
    · intro ps hpe
      rw [show ps = p0 :: p1 :: rest from (Entry.multi.inj hpe).symm]
      refine ⟨by simp, by rw [← hpf]; exact hsub, ?_⟩
      intro p hp
      exact hml p (by rw [hpf]; exact hp)

theorem c10_index_invariant_witness :
    wfTree [["a".data, "x.png".data], ["b".data, "x.png".data],
      ["c".data, "y.png".data]]
    ∧ lookupIdx (build_file_index [["a".data, "x.png".data],
        ["b".data, "x.png".data], ["c".data, "y.png".data]]).1 "x.png".data
      = some (Entry.multi ["a/x.png".data, "b/x.png".data])
    ∧ 2 ≤ (["a/x.png".data, "b/x.png".data] : List (List Char)).length
    ∧ (["a/x.png".data, "b/x.png".data] : List (List Char)).Sublist
        (build_file_index [["a".data, "x.png".data], ["b".data, "x.png".data],
          ["c".data, "y.png".data]]).2
    ∧ ∀ p ∈ (["a/x.png".data, "b/x.png".data] : List (List Char)),
        p ∈ (build_file_index [["a".data, "x.png".data], ["b".data, "x.png".data],
          ["c".data, "y.png".data]]).2 ∧ lastSlashSeg p = "x.png".data :=
  ⟨by decide, by decide,
    ((c10_index_invariant
        [["a".data, "x.png".data], ["b".data, "x.png".data], ["c".data, "y.png".data]]
        (by decide) "x.png".data
        (Entry.multi ["a/x.png".data, "b/x.png".data]) (by decide)).2
      ["a/x.png".data, "b/x.png".data] rfl).1,
    ((c10_index_invariant
        [["a".data, "x.png".data], ["b".data, "x.png".data], ["c".data, "y.png".data]]
        (by decide) "x.png".data
        (Entry.multi ["a/x.png".data, "b/x.png".data]) (by decide)).2
      ["a/x.png".data, "b/x.png".data] rfl).2.1,
    ((c10_index_invariant
        [["a".data, "x.png".data], ["b".data, "x.png".data], ["c".data, "y.png".data]]
        (by decide) "x.png".data
        (Entry.multi ["a/x.png".data, "b/x.png".data]) (by decide)).2
      ["a/x.png".data, "b/x.png".data] rfl).2.2⟩

